import Mathlib

/-!
Verification of `tc.cc`: 1-jets over the complex plane.

The C++ class `tc` — a complex number `val` together with a variation `der` —
and its operators and elementary functions are embedded in two readings.

The exact reading (`tc`) takes `double` as `ℝ` and `std::complex<double>` as
`ℂ`: every operation is its exact mathematical counterpart (`std::norm` is
`Complex.normSq`, `std::exp` is `Complex.exp`, `std::log` is the principal
`Complex.log`, `std::conj` is complex conjugation).  It is the program with
rounding, overflow, underflow and the sign of zero taken away; the rules of
differentiation that the operators implement are identities of this reading.
In it `x / 0 = 0`, so every statement about a quotient carries the hypothesis
that the divisor is non-zero.

The double-precision reading (`F64`, `C64`, `tc64`) takes `double` as IEEE 754
binary64, with rounding to nearest, signed zeros, infinities and
not-a-number.  What the program returns on given doubles is stated in this
reading.  A rule of exact equality holds of double-precision results only
where no operation rounds; such a rule is stated for `tc64` under the
hypothesis that every operation involved returns exactly the real or complex
result on its stored operands, and is then an identity of the exact reading.

In-place operators (`+=`, `-=`, `*=`, `/=`) are state transformers: they take
the state of `*this` before the call and return its state after the call,
one field update per source statement.
-/

set_option autoImplicit false

/-- The scalar type `typedef std::complex<double> cmplex`. -/
abbrev cmplex : Type := ℂ

/-- The class `tc`: the constructor `tc(cmplex un = 0, cmplex deux = 0)`
initialises `val` with `un` and `der` with `deux`; both default to zero. -/
@[ext]
structure tc where
  val : cmplex := 0
  der : cmplex := 0

namespace tc

/-- The constant `static constexpr cmplex I {0.0, 1.0}`. -/
def I : cmplex := ⟨0.0, 1.0⟩

/-- The copy assignment `operator=(const tc&)`. -/
def assign (self t : tc) : tc :=
  let s1 : tc := { self with val := t.val }
  { s1 with der := t.der }

/-- The assignment `operator=(const double&)`: `val = r; der = 0.0`. -/
def assign_double (self : tc) (r : ℝ) : tc :=
  let s1 : tc := { self with val := (r : ℂ) }
  { s1 with der := ((0.0 : ℝ) : ℂ) }

/-- The assignment `operator=(const cmplex&)`: `val = c; der = 0.0`. -/
def assign_cmplex (self : tc) (c : cmplex) : tc :=
  let s1 : tc := { self with val := c }
  { s1 with der := ((0.0 : ℝ) : ℂ) }

/-- The converting constructor call `tc(un)`, applied implicitly wherever a
`cmplex` meets a `tc` operand: the derivative takes its default. -/
def ofCmplex (un : cmplex) : tc := { val := un }

/-- The in-place sum `operator +=`. -/
def add_assign (self t : tc) : tc :=
  let s1 : tc := { self with val := self.val + t.val }
  { s1 with der := s1.der + t.der }

/-- The in-place difference `operator -=`. -/
def sub_assign (self t : tc) : tc :=
  let s1 : tc := { self with val := self.val - t.val }
  { s1 with der := s1.der - t.der }

/-- The in-place product `operator *=`: `der` is written first, from the
value not yet updated, then `val`. -/
def mul_assign (self t : tc) : tc :=
  let s1 : tc := { self with der := self.val * t.der + self.der * t.val }
  { s1 with val := s1.val * t.val }

/-- The in-place quotient `operator /=` in the exact reading:
`nr = 1.0/std::norm(t.val)`, `aux = (nr*Re t.val, (-nr)*Im t.val)`, then
`val *= aux` and `der = (der - t.der*val)*aux`, the latter reading the updated
`val`.  Here `std::norm` neither overflows nor underflows; in doubles it does,
see `tc64.div_assign`. -/
noncomputable def div_assign (self t : tc) : tc :=
  let nr : ℝ := 1.0 / Complex.normSq t.val
  let aux : cmplex := ⟨nr * t.val.re, (-nr) * t.val.im⟩
  let s1 : tc := { self with val := self.val * aux }
  { s1 with der := (s1.der - t.der * s1.val) * aux }

/-- The free product `operator*(const tc&, const tc&)`. -/
def mul (a b : tc) : tc := ⟨a.val * b.val, a.val * b.der + a.der * b.val⟩

/-- The free product `operator*(const double&, const tc&)`. -/
def mul_double_tc (a : ℝ) (b : tc) : tc := ⟨(a : ℂ) * b.val, (a : ℂ) * b.der⟩

/-- The free product `operator*(const tc&, const double&)`. -/
def mul_tc_double (a : tc) (b : ℝ) : tc := ⟨a.val * (b : ℂ), a.der * (b : ℂ)⟩

/-- The free quotient `operator/(const tc&, const tc&)` in the exact reading:
copy, then `/=`. -/
noncomputable def div (a b : tc) : tc :=
  let t : tc := a
  div_assign t b

/-- The free sum `operator+(const tc&, const tc&)`. -/
def add (a b : tc) : tc := ⟨a.val + b.val, a.der + b.der⟩

/-- The free difference `operator-(const tc&, const tc&)`. -/
def sub (a b : tc) : tc := ⟨a.val - b.val, a.der - b.der⟩

/-- Unary minus `operator-(const tc&)`. -/
def neg (a : tc) : tc := ⟨-a.val, -a.der⟩

/-- The function `exp`: `aux = std::exp(a.val)`, result `(aux, aux*a.der)`. -/
noncomputable def exp (a : tc) : tc :=
  let aux : cmplex := Complex.exp a.val
  ⟨aux, aux * a.der⟩

/-- The function `conj`: both fields conjugated. -/
def conj (a : tc) : tc := ⟨(starRingEnd ℂ) a.val, (starRingEnd ℂ) a.der⟩

end tc

/-! ## The double-precision reading

The scalars of the program are IEEE 754 binary64 numbers.  `F64` carries the
finite numbers, the two infinities and not-a-number; its operations round to
nearest, ties to even, overflow to an infinity and keep the sign of zero.
`C64` is `std::complex<double>` and `tc64` is the class `tc` over it.  The
functions `std::exp`, `std::log` and the quotient of two complex numbers come
from the host library and are parameters (`Host`). -/

/-- Modelled from the spec: the type `double`, which the source takes from the
language and the spec names as IEEE double precision.  A binary64 datum is the
finite number `(-1)^neg * m * 2^e`, an infinity, or not-a-number.  The results
of the operations below are canonical: `m < 2^53`, `-1074 ≤ e ≤ 971`, and
`2^52 ≤ m` unless `e = -1074`. -/
inductive F64 where
  | fin (neg : Bool) (m : Nat) (e : Int)
  | inf (neg : Bool)
  | nan
deriving DecidableEq

namespace F64

/-- Number of binary digits of `n`, by halving; the first argument bounds the
number of steps. -/
def bitsAux : Nat → Nat → Nat
  | 0, _ => 0
  | fuel + 1, n => if n = 0 then 0 else bitsAux fuel (n / 2) + 1

/-- Number of binary digits of `n`. -/
def bits (n : Nat) : Nat := bitsAux n n

/-- Round the exact number `(-1)^s * n * 2^e` to binary64: nearest, ties to
even, gradual underflow, overflow to the infinity of the same sign. -/
def round (s : Bool) (n : Nat) (e : Int) : F64 :=
  if n = 0 then fin s 0 (-1074) else
    let len : Int := (bits n : Nat)
    let e1 : Int := max (e + len - 53) (-1074)
    if e1 ≤ e then
      if 971 < e1 then inf s else fin s (n <<< (e - e1).toNat) e1
    else
      let sh : Nat := (e1 - e).toNat
      let q : Nat := n >>> sh
      let r : Nat := n % 2 ^ sh
      let half : Nat := 2 ^ (sh - 1)
      let q1 : Nat := if half < r ∨ (r = half ∧ q % 2 = 1) then q + 1 else q
      let m : Nat := if q1 = 2 ^ 53 then 2 ^ 52 else q1
      let e2 : Int := if q1 = 2 ^ 53 then e1 + 1 else e1
      if 971 < e2 then inf s else fin s m e2

/-- The zero of sign `s`. -/
def zero (s : Bool) : F64 := fin s 0 (-1074)

/-- The double nearest to the natural number `n` (a literal such as `1.0`). -/
def ofNat (n : Nat) : F64 := round false n 0

/-- The double `2^e`, when `-1074 ≤ e ≤ 1023`. -/
def pow2 (e : Int) : F64 := round false 1 e

/-- Unary minus: the sign is flipped. -/
def neg : F64 → F64
  | fin s m e => fin (!s) m e
  | inf s => inf (!s)
  | nan => nan

/-- The sum, correctly rounded.  The sum of two zeros is `-0.0` only when both
are; a zero leaves a non-zero operand as it is; an exact sum `0` of non-zero
operands is `+0.0`. -/
def add : F64 → F64 → F64
  | nan, _ => nan
  | _, nan => nan
  | inf s, inf t => if s = t then inf s else nan
  | inf s, fin _ _ _ => inf s
  | fin _ _ _, inf t => inf t
  | fin s1 m1 e1, fin s2 m2 e2 =>
    if m1 = 0 then (if m2 = 0 then fin (s1 && s2) 0 (-1074) else fin s2 m2 e2)
    else if m2 = 0 then fin s1 m1 e1
    else
      let e : Int := min e1 e2
      let x : Int := (if s1 then -1 else 1) * ((m1 <<< (e1 - e).toNat : Nat) : Int)
      let y : Int := (if s2 then -1 else 1) * ((m2 <<< (e2 - e).toNat : Nat) : Int)
      let z : Int := x + y
      if z = 0 then fin false 0 (-1074) else round (decide (z < 0)) z.natAbs e

/-- The difference `x - y`, which is `x + (-y)`. -/
def sub (x y : F64) : F64 := add x (neg y)

/-- The product, correctly rounded; `0 * inf` is not-a-number. -/
def mul : F64 → F64 → F64
  | nan, _ => nan
  | _, nan => nan
  | inf s, inf t => inf (xor s t)
  | inf s, fin t m _ => if m = 0 then nan else inf (xor s t)
  | fin s m _, inf t => if m = 0 then nan else inf (xor s t)
  | fin s1 m1 e1, fin s2 m2 e2 => round (xor s1 s2) (m1 * m2) (e1 + e2)

/-- The quotient, correctly rounded: `x / 0` is an infinity for `x ≠ 0`,
`0 / 0` and `inf / inf` are not-a-number, `x / inf` is a zero.  The exact
quotient is cut after more than `64` binary digits, with a last digit that
records whether anything was cut off. -/
def div : F64 → F64 → F64
  | nan, _ => nan
  | _, nan => nan
  | inf _, inf _ => nan
  | inf s, fin t _ _ => inf (xor s t)
  | fin s _ _, inf t => fin (xor s t) 0 (-1074)
  | fin s1 m1 e1, fin s2 m2 e2 =>
    if m2 = 0 then (if m1 = 0 then nan else inf (xor s1 s2))
    else
      let k : Nat := 64 + bits m2
      let n : Nat := m1 <<< k
      let q : Nat := n / m2
      let r : Nat := n % m2
      round (xor s1 s2) (2 * q + (if r = 0 then 0 else 1)) (e1 + -e2 + -(k : Int) + -1)

/-- The datum is a finite number. -/
def isFinite : F64 → Bool
  | fin _ _ _ => true
  | _ => false

/-- The datum is not-a-number (`isnan`). -/
def isNaN : F64 → Bool
  | nan => true
  | _ => false

/-- The datum is an infinity (`isinf`). -/
def isInf : F64 → Bool
  | inf _ => true
  | _ => false

/-- The datum is `+0.0` or `-0.0`. -/
def isZero : F64 → Bool
  | fin _ m _ => decide (m = 0)
  | _ => false

/-- The sign of the datum; the sign of not-a-number is not modelled and is
taken as positive. -/
def signBit : F64 → Bool
  | fin s _ _ => s
  | inf s => s
  | nan => false

/-- The real number a finite datum stands for; `0` for the others. -/
noncomputable def toReal : F64 → ℝ
  | fin s m e => (if s then -1 else 1) * (m : ℝ) * (2 : ℝ) ^ e
  | _ => 0

end F64

/-- Modelled from the spec: the type `std::complex<double>` of the header
`<complex>`, with the operations the source uses: sum, difference, product,
unary minus, `std::norm`, `std::conj`, and product and quotient by a
`double`. -/
structure C64 where
  re : F64
  im : F64
deriving DecidableEq

namespace C64

/-- Both parts are finite numbers. -/
def isFinite (z : C64) : Bool := z.re.isFinite && z.im.isFinite

/-- The complex number a datum with finite parts stands for. -/
noncomputable def toC (z : C64) : ℂ := ⟨z.re.toReal, z.im.toReal⟩

/-- The datum has finite parts and stands for the complex number `w`. -/
def Exactly (z : C64) (w : ℂ) : Prop := z.isFinite = true ∧ z.toC = w

/-- The conversion of a `double` to `std::complex<double>`: imaginary part
`+0.0`. -/
def ofDouble (x : F64) : C64 := ⟨x, F64.zero false⟩

/-- Sum of two complex numbers, part by part. -/
def add (z w : C64) : C64 := ⟨F64.add z.re w.re, F64.add z.im w.im⟩

/-- Difference of two complex numbers, part by part. -/
def sub (z w : C64) : C64 := ⟨F64.sub z.re w.re, F64.sub z.im w.im⟩

/-- Unary minus, part by part. -/
def neg (z : C64) : C64 := ⟨F64.neg z.re, F64.neg z.im⟩

/-- The function `std::conj`. -/
def conj (z : C64) : C64 := ⟨z.re, F64.neg z.im⟩

/-- The function `std::norm`, the squared modulus `re*re + im*im`. -/
def norm (z : C64) : F64 := F64.add (F64.mul z.re z.re) (F64.mul z.im z.im)

/-- Product of a complex number by a `double`, part by part. -/
def scale (z : C64) (x : F64) : C64 := ⟨F64.mul z.re x, F64.mul z.im x⟩

/-- The operand of the recomputation in the product: `copysign(isinf(x) ? 1.0 : 0.0, x)`. -/
def box (x : F64) : F64 :=
  if x.isInf then F64.fin x.signBit (2 ^ 52) (-52) else F64.zero x.signBit

/-- The operand of the recomputation in the product:
`isnan(x) ? copysign(0.0, x) : x`. -/
def unNaN (x : F64) : F64 := if x.isNaN then F64.zero x.signBit else x

/-- The recomputation step of the product (C Annex G): when an operand has an
infinite part, or a partial product is infinite, the operands are replaced as
prescribed and the pair `(a*c - b*d, a*d + b*c)` of the replaced operands is
returned; the product is then `inf` times each part. -/
def recomputed (z w : C64) : Option C64 :=
  let ac : F64 := F64.mul z.re w.re
  let bd : F64 := F64.mul z.im w.im
  let ad : F64 := F64.mul z.re w.im
  let bc : F64 := F64.mul z.im w.re
  let r1 : Bool := z.re.isInf || z.im.isInf
  let a1 : F64 := if r1 then box z.re else z.re
  let b1 : F64 := if r1 then box z.im else z.im
  let c1 : F64 := if r1 then unNaN w.re else w.re
  let d1 : F64 := if r1 then unNaN w.im else w.im
  let r2 : Bool := c1.isInf || d1.isInf
  let c2 : F64 := if r2 then box c1 else c1
  let d2 : F64 := if r2 then box d1 else d1
  let a2 : F64 := if r2 then unNaN a1 else a1
  let b2 : F64 := if r2 then unNaN b1 else b1
  let r3 : Bool := !(r1 || r2) && (ac.isInf || bd.isInf || ad.isInf || bc.isInf)
  let a3 : F64 := if r3 then unNaN a2 else a2
  let b3 : F64 := if r3 then unNaN b2 else b2
  let c3 : F64 := if r3 then unNaN c2 else c2
  let d3 : F64 := if r3 then unNaN d2 else d2
  if r1 || r2 || r3 then
    some ⟨F64.sub (F64.mul a3 c3) (F64.mul b3 d3), F64.add (F64.mul a3 d3) (F64.mul b3 c3)⟩
  else none

/-- Product of two complex numbers: `(ac - bd, ad + bc)`; when both parts come
out as not-a-number the result is recomputed as prescribed for infinite
operands (C Annex G), which leaves it with infinite or not-a-number parts. -/
def mul (z w : C64) : C64 :=
  let x : F64 := F64.sub (F64.mul z.re w.re) (F64.mul z.im w.im)
  let y : F64 := F64.add (F64.mul z.re w.im) (F64.mul z.im w.re)
  if x.isNaN && y.isNaN then
    match recomputed z w with
    | some p => ⟨F64.mul (F64.inf false) p.re, F64.mul (F64.inf false) p.im⟩
    | none => ⟨x, y⟩
  else ⟨x, y⟩

end C64

/-- Modelled from the spec: the host library's `std::exp` and `std::log` on
`std::complex<double>` and its quotient of two complex numbers.  Their results are not fixed digit by
digit by any standard; what is recorded of them is that, on a finite real
argument (imaginary part a zero), `std::exp` keeps the zero imaginary part
and returns a finite number or `+inf`, never not-a-number, and `+inf` once
`e^x` is `2^1024` or more; and that the quotient of two positive reals which
is `2^1024` or more has real part `+inf`. -/
structure Host where
  cexp : C64 → C64
  clog : C64 → C64
  cdiv : C64 → C64 → C64
  exp_im : ∀ (neg : Bool) (m : Nat) (e : Int) (s : Bool),
    (cexp ⟨F64.fin neg m e, F64.zero s⟩).im = F64.zero s
  exp_re : ∀ (neg : Bool) (m : Nat) (e : Int) (s : Bool),
    (cexp ⟨F64.fin neg m e, F64.zero s⟩).re = F64.inf false ∨
      (cexp ⟨F64.fin neg m e, F64.zero s⟩).re.isFinite = true
  exp_overflow : ∀ (neg : Bool) (m : Nat) (e : Int) (s : Bool),
    (2 : ℝ) ^ (1024 : ℕ) ≤ Real.exp (F64.fin neg m e).toReal →
      (cexp ⟨F64.fin neg m e, F64.zero s⟩).re = F64.inf false
  div_overflow : ∀ (m1 : Nat) (e1 : Int) (m2 : Nat) (e2 : Int), m2 ≠ 0 →
    (2 : ℝ) ^ (1024 : ℕ) ≤ (F64.fin false m1 e1).toReal / (F64.fin false m2 e2).toReal →
      (cdiv ⟨F64.fin false m1 e1, F64.zero false⟩ ⟨F64.fin false m2 e2, F64.zero false⟩).re
        = F64.inf false

/-- The class `tc` over `std::complex<double>`; the constructor defaults are
`cmplex(0.0, 0.0)`. -/
structure tc64 where
  val : C64 := ⟨F64.zero false, F64.zero false⟩
  der : C64 := ⟨F64.zero false, F64.zero false⟩
deriving DecidableEq

namespace tc64

/-- The constant `static constexpr cmplex I {0.0, 1.0}`. -/
def I : C64 := ⟨F64.zero false, F64.ofNat 1⟩

/-- The constant `0.5`. -/
def half : F64 := F64.pow2 (-1)

/-- The converting constructor call `tc(un)`. -/
def ofCmplex (un : C64) : tc64 := { val := un }

/-- The in-place quotient `operator /=`, statement by statement:
`nr = 1.0/std::norm(t.val)`, `aux = (nr*t.val.real(), (-nr)*t.val.imag())`,
`val *= aux`, `der = (der - t.der*val)*aux`. -/
def div_assign (self t : tc64) : tc64 :=
  let nr : F64 := F64.div (F64.ofNat 1) (C64.norm t.val)
  let aux : C64 := ⟨F64.mul nr t.val.re, F64.mul (F64.neg nr) t.val.im⟩
  let s1 : tc64 := { self with val := C64.mul self.val aux }
  { s1 with der := C64.mul (C64.sub s1.der (C64.mul t.der s1.val)) aux }

/-- The free product `operator*(const tc&, const tc&)`. -/
def mul (a b : tc64) : tc64 :=
  ⟨C64.mul a.val b.val, C64.add (C64.mul a.val b.der) (C64.mul a.der b.val)⟩

/-- The free product `operator*(const double&, const tc&)`. -/
def mul_double_tc (a : F64) (b : tc64) : tc64 := ⟨C64.scale b.val a, C64.scale b.der a⟩

/-- The free product `operator*(const tc&, const double&)`. -/
def mul_tc_double (a : tc64) (b : F64) : tc64 := ⟨C64.scale a.val b, C64.scale a.der b⟩

/-- The free quotient `operator/(const tc&, const tc&)`: copy, then `/=`. -/
def div (a b : tc64) : tc64 :=
  let t : tc64 := a
  div_assign t b

/-- The free sum `operator+(const tc&, const tc&)`. -/
def add (a b : tc64) : tc64 := ⟨C64.add a.val b.val, C64.add a.der b.der⟩

/-- The free difference `operator-(const tc&, const tc&)`. -/
def sub (a b : tc64) : tc64 := ⟨C64.sub a.val b.val, C64.sub a.der b.der⟩

/-- The function `exp`: `aux = std::exp(a.val)`, result `(aux, aux*a.der)`. -/
def exp (H : Host) (a : tc64) : tc64 :=
  let aux : C64 := H.cexp a.val
  ⟨aux, C64.mul aux a.der⟩

/-- The jet of complex numbers that a jet with finite fields stands for. -/
noncomputable def toExact (a : tc64) : tc := ⟨a.val.toC, a.der.toC⟩

/-- Both fields have finite parts. -/
def isFinite (a : tc64) : Bool := a.val.isFinite && a.der.isFinite

end tc64

namespace tc64

/-- The jet `tc(1, 1)`. -/
def unit : tc64 := ⟨⟨F64.ofNat 1, F64.zero false⟩, ⟨F64.ofNat 1, F64.zero false⟩⟩

/-- The jet `tc(n/10)` of the double nearest to `n/10`, as the literals `0.1`,
`0.2`, `0.3` give for `n = 1, 2, 3`. -/
def tenths (n : Nat) : tc64 := ofCmplex (C64.ofDouble (F64.div (F64.ofNat n) (F64.ofNat 10)))

end tc64

/-! ## Double precision: comparison, and operations that do not round

A rule of exact equality can hold of double-precision results only where no
operation rounds.  For each operator of the source the predicates below say
that every `double` and `std::complex<double>` operation it performs returns a
finite result which is exactly the real or complex result on the stored
operands. -/

namespace F64

/-- The comparison `==` of two doubles: `+0.0` and `-0.0` are equal, and
not-a-number is equal to nothing. -/
def numEq : F64 → F64 → Bool
  | fin s1 m1 e1, fin s2 m2 e2 =>
    (decide (m1 = 0) && decide (m2 = 0)) ||
      (decide (s1 = s2) &&
        decide (m1 <<< (e1 - min e1 e2).toNat = m2 <<< (e2 - min e1 e2).toNat))
  | inf s, inf t => decide (s = t)
  | _, _ => false

/-- The fields are those of a binary64 datum: a finite one has a mantissa below
`2^53` and an exponent from `-1074` to `971`, and its mantissa is at least
`2^52` unless the exponent is `-1074`. -/
def wellFormed : F64 → Bool
  | fin _ m e =>
    decide (m < 2 ^ 53) && decide (-1074 ≤ e) && decide (e ≤ 971) &&
      (decide (2 ^ 52 ≤ m) || decide (e = -1074))
  | _ => true

/-- The double is finite and is exactly the real number `r`. -/
def Exactly (x : F64) (r : ℝ) : Prop := x.isFinite = true ∧ x.toReal = r

/-- The datum is a finite number with exponent field at least `-1074`, as
every finite double has: a whole multiple of `2^-1074`. -/
def onGrid : F64 → Bool
  | fin _ _ e => decide (-1074 ≤ e)
  | _ => false

/-- The whole number `N` for which a finite double is `N * 2^-1074`. -/
def units : F64 → Int
  | fin s m e => (if s then -1 else 1) * ((m * 2 ^ (e + 1074).toNat : Nat) : Int)
  | _ => 0

/-- Test, in whole numbers: `r` is exactly the sum of `x` and `y`. -/
def isSum (r x y : F64) : Bool :=
  r.onGrid && x.onGrid && y.onGrid && decide (r.units = x.units + y.units)

/-- Test, in whole numbers: `r` is exactly the product of `x` and `y`. -/
def isProd (r x y : F64) : Bool :=
  r.onGrid && x.onGrid && y.onGrid && decide (r.units * 2 ^ 1074 = x.units * y.units)

/-- Test, in whole numbers: `r` is exactly the quotient of `x` by `y ≠ 0`. -/
def isQuot (r x y : F64) : Bool :=
  r.onGrid && x.onGrid && y.onGrid && decide (y.units ≠ 0) &&
    decide (r.units * y.units = x.units * 2 ^ 1074)

end F64

namespace C64

/-- The comparison `==` of two complex numbers, part by part. -/
def numEq (z w : C64) : Bool := F64.numEq z.re w.re && F64.numEq z.im w.im

/-- The sum `z + w` does not round. -/
def AddExact (z w : C64) : Prop := Exactly (add z w) (z.toC + w.toC)

/-- The difference `z - w` does not round. -/
def SubExact (z w : C64) : Prop := Exactly (sub z w) (z.toC - w.toC)

/-- The product `z * w` does not round. -/
def MulExact (z w : C64) : Prop := Exactly (mul z w) (z.toC * w.toC)

/-- Test, in whole numbers: `r` is exactly the sum of `z` and `w`. -/
def isSum (r z w : C64) : Bool := F64.isSum r.re z.re w.re && F64.isSum r.im z.im w.im

/-- Test, in whole numbers: `r` is exactly the product of `z` and `w`. -/
def isProd (r z w : C64) : Bool :=
  r.re.onGrid && r.im.onGrid && z.re.onGrid && z.im.onGrid && w.re.onGrid && w.im.onGrid &&
    decide (r.re.units * 2 ^ 1074 = z.re.units * w.re.units - z.im.units * w.im.units) &&
    decide (r.im.units * 2 ^ 1074 = z.re.units * w.im.units + z.im.units * w.re.units)

end C64

namespace tc64

/-- The comparison `==` of two jets, field by field. -/
def numEq (a b : tc64) : Bool := C64.numEq a.val b.val && C64.numEq a.der b.der

/-- The unary minus `operator-(const tc&)`. -/
def neg (a : tc64) : tc64 := ⟨C64.neg a.val, C64.neg a.der⟩

/-- All parts of both fields are well-formed doubles. -/
def wellFormed (a : tc64) : Bool :=
  a.val.re.wellFormed && a.val.im.wellFormed && a.der.re.wellFormed && a.der.im.wellFormed

/-- The local `nr` of `operator /=`: `1.0/std::norm(t.val)`. -/
def div_assign_nr (t : tc64) : F64 := F64.div (F64.ofNat 1) (C64.norm t.val)

/-- The local `aux` of `operator /=`: `(nr*t.val.real(), (-nr)*t.val.imag())`. -/
def div_assign_aux (t : tc64) : C64 :=
  ⟨F64.mul (div_assign_nr t) t.val.re, F64.mul (F64.neg (div_assign_nr t)) t.val.im⟩

/-- No operation of `a + b` rounds. -/
def AddExact (a b : tc64) : Prop := C64.AddExact a.val b.val ∧ C64.AddExact a.der b.der

/-- No operation of `a - b` rounds. -/
def SubExact (a b : tc64) : Prop := C64.SubExact a.val b.val ∧ C64.SubExact a.der b.der

/-- No operation of `a * b` rounds: the three complex products and the sum. -/
def MulExact (a b : tc64) : Prop :=
  C64.MulExact a.val b.val ∧ C64.MulExact a.val b.der ∧ C64.MulExact a.der b.val ∧
    C64.AddExact (C64.mul a.val b.der) (C64.mul a.der b.val)

/-- No operation of `a /= b` (and so of `a / b`) rounds: `std::norm(b.val)` is
exactly `|b.val|²`, the quotient `nr = 1.0/std::norm(b.val)` and the two
products of `aux` are exact, and so are the complex products and the
difference of `val *= aux` and `der = (der - t.der*val)*aux`. -/
def DivExact (a b : tc64) : Prop :=
  F64.Exactly (C64.norm b.val) (Complex.normSq b.val.toC) ∧
  F64.Exactly (div_assign_nr b) (1 / (C64.norm b.val).toReal) ∧
  F64.Exactly (F64.mul (div_assign_nr b) b.val.re)
    ((div_assign_nr b).toReal * b.val.re.toReal) ∧
  F64.Exactly (F64.mul (F64.neg (div_assign_nr b)) b.val.im)
    (-(div_assign_nr b).toReal * b.val.im.toReal) ∧
  C64.MulExact a.val (div_assign_aux b) ∧
  C64.MulExact b.der (C64.mul a.val (div_assign_aux b)) ∧
  C64.SubExact a.der (C64.mul b.der (C64.mul a.val (div_assign_aux b))) ∧
  C64.MulExact (C64.sub a.der (C64.mul b.der (C64.mul a.val (div_assign_aux b))))
    (div_assign_aux b)

/-- Test, in whole numbers, for `AddExact`. -/
def addCheck (a b : tc64) : Bool :=
  C64.isSum (C64.add a.val b.val) a.val b.val && C64.isSum (C64.add a.der b.der) a.der b.der

/-- Test, in whole numbers, for `MulExact`. -/
def mulCheck (a b : tc64) : Bool :=
  C64.isProd (C64.mul a.val b.val) a.val b.val &&
  C64.isProd (C64.mul a.val b.der) a.val b.der &&
  C64.isProd (C64.mul a.der b.val) a.der b.val &&
  C64.isSum (C64.add (C64.mul a.val b.der) (C64.mul a.der b.val))
    (C64.mul a.val b.der) (C64.mul a.der b.val)

/-- Test, in whole numbers, for `DivExact`. -/
def divCheck (a b : tc64) : Bool :=
  (C64.norm b.val).onGrid && b.val.re.onGrid && b.val.im.onGrid &&
  decide ((C64.norm b.val).units * 2 ^ 1074
    = b.val.re.units * b.val.re.units + b.val.im.units * b.val.im.units) &&
  F64.isQuot (div_assign_nr b) (F64.ofNat 1) (C64.norm b.val) &&
  F64.isProd (F64.mul (div_assign_nr b) b.val.re) (div_assign_nr b) b.val.re &&
  F64.isProd (F64.mul (F64.neg (div_assign_nr b)) b.val.im) (F64.neg (div_assign_nr b))
    b.val.im &&
  C64.isProd (C64.mul a.val (div_assign_aux b)) a.val (div_assign_aux b) &&
  C64.isProd (C64.mul b.der (C64.mul a.val (div_assign_aux b))) b.der
    (C64.mul a.val (div_assign_aux b)) &&
  C64.isSum a.der (C64.sub a.der (C64.mul b.der (C64.mul a.val (div_assign_aux b))))
    (C64.mul b.der (C64.mul a.val (div_assign_aux b))) &&
  C64.isProd
    (C64.mul (C64.sub a.der (C64.mul b.der (C64.mul a.val (div_assign_aux b))))
      (div_assign_aux b))
    (C64.sub a.der (C64.mul b.der (C64.mul a.val (div_assign_aux b)))) (div_assign_aux b)

/-- The jet `tc(6, 1)`. -/
def six : tc64 := ⟨⟨F64.ofNat 6, F64.zero false⟩, ⟨F64.ofNat 1, F64.zero false⟩⟩

/-- The jet `tc(2, 1)`. -/
def two : tc64 := ⟨⟨F64.ofNat 2, F64.zero false⟩, ⟨F64.ofNat 1, F64.zero false⟩⟩

end tc64

/-! ## Field-by-field evaluation of the operations -/

namespace tc

end tc

namespace tc

end tc

/-! ## Soundness of the arithmetic operators -/

namespace tc

end tc

/-! ## Soundness of the elementary functions -/

namespace tc

end tc

/-! ## Quotient and product rules -/

namespace tc

/-- C4. Product rule with the pre-update value: the free product `a*b` has
value `a.val*b.val` and derivative `a.val*b.der + a.der*b.val`, and after
`a *= b` the jet `a` holds that same pair, its derivative computed from the
old `a.val`: the compound and the free operator agree. -/
theorem product_rule (a b : tc) :
    (mul a b).val = a.val * b.val ∧
    (mul a b).der = a.val * b.der + a.der * b.val ∧
    (mul_assign a b).val = a.val * b.val ∧
    (mul_assign a b).der = a.val * b.der + a.der * b.val ∧
    mul_assign a b = mul a b :=
  ⟨rfl, rfl, rfl, rfl, rfl⟩

end tc

/-! ## Trigonometric functions -/

namespace tc

end tc

/-! ## Square root, exponential and linearity -/

namespace tc

/-- C10. Linearity: `(a+b).der = a.der + b.der`, `(c*a).der = c*a.der` and
`(a*c).der = c*a.der` for a real constant `c`; the state of `a` after
`a += b` has derivative `a.der + b.der` as well. -/
theorem linearity (a b : tc) (c : ℝ) :
    (add a b).der = a.der + b.der ∧
    (mul_double_tc c a).der = (c : ℂ) * a.der ∧
    (mul_tc_double a c).der = (c : ℂ) * a.der ∧
    (add_assign a b).der = a.der + b.der ∧
    add_assign a b = add a b :=
  ⟨rfl, rfl, mul_comm _ _, rfl, rfl⟩

end tc

/-! ## Scalars: promotion and assignment -/

namespace tc

theorem zero_literal_cast_eq : (((0.0 : ℝ)) : ℂ) = 0 := by
  norm_num

/-- C12. Constant promotion on assignment: whatever the prior state of the
jet, assigning a real or a complex scalar `k` leaves it with value `k` and
derivative `0`; a jet constructed from a single value has derivative `0`, and
one constructed from nothing is `(0, 0)`. -/
theorem constant_promotion (self : tc) (r : ℝ) (k : cmplex) :
    assign_double self r = ⟨(r : ℂ), 0⟩ ∧
    assign_cmplex self k = ⟨k, 0⟩ ∧
    (ofCmplex k).val = k ∧ (ofCmplex k).der = 0 ∧
    ({} : tc) = ⟨0, 0⟩ := by
  refine ⟨?_, ?_, rfl, rfl, rfl⟩
  · apply tc.ext
    · rfl
    · exact zero_literal_cast_eq
  · apply tc.ext
    · rfl
    · exact zero_literal_cast_eq

/-- C13. The function `conj` is the one non-holomorphic operation:
`conj(a) = (conj(a.val), conj(a.der))`, and there is no complex-valued
function `c` of the value alone with `conj(a).der = c(a.val)*a.der` for all
jets `a`; already at any fixed value `z`, no single multiplier serves both
the derivative `1` and the derivative `i`. -/
theorem conj_not_chain_rule :
    (∀ a : tc, conj a = ⟨(starRingEnd ℂ) a.val, (starRingEnd ℂ) a.der⟩) ∧
    (¬ ∃ c : ℂ → ℂ, ∀ a : tc, (conj a).der = c a.val * a.der) ∧
    (∀ z : ℂ, ¬ ∃ m : ℂ, (conj ⟨z, 1⟩).der = m * 1 ∧ (conj ⟨z, Complex.I⟩).der = m * Complex.I) := by
  have key : ∀ z : ℂ, ¬ ∃ m : ℂ,
      (conj ⟨z, 1⟩).der = m * 1 ∧ (conj ⟨z, Complex.I⟩).der = m * Complex.I := by
    rintro z ⟨m, h1, h2⟩
    simp only [conj, map_one, mul_one, Complex.conj_I] at h1 h2
    rw [← h1, one_mul] at h2
    have h3 : (2 : ℂ) * Complex.I = 0 := by linear_combination -h2
    simp [Complex.I_ne_zero] at h3
  refine ⟨fun _ => rfl, ?_, key⟩
  rintro ⟨c, hc⟩
  exact key 0 ⟨c 0, hc ⟨0, 1⟩, hc ⟨0, Complex.I⟩⟩

end tc

/-! ## A concrete scenario and the principal square root -/

namespace tc

/-- C14. Concrete scenario: for the identity jet `a = (2+0i, 1+0i)`, `a*a`
is the jet with value `4+0i` and derivative `4+0i`, and `exp(a)` is the jet
with value `e²+0i` and derivative `e²+0i`, where `e²` lies within `0.001` of
`7.389`. -/
theorem concrete_scenario :
    mul ⟨⟨2, 0⟩, ⟨1, 0⟩⟩ ⟨⟨2, 0⟩, ⟨1, 0⟩⟩ = ⟨⟨4, 0⟩, ⟨4, 0⟩⟩ ∧
    exp ⟨⟨2, 0⟩, ⟨1, 0⟩⟩ = ⟨⟨Real.exp 1 ^ 2, 0⟩, ⟨Real.exp 1 ^ 2, 0⟩⟩ ∧
    |Real.exp 1 ^ 2 - 7.389| < 0.001 := by
  have h2 : (⟨2, 0⟩ : ℂ) = 2 := by apply Complex.ext <;> simp
  have h1 : (⟨1, 0⟩ : ℂ) = 1 := by apply Complex.ext <;> simp
  have h4 : (⟨4, 0⟩ : ℂ) = 4 := by apply Complex.ext <;> simp
  have he : (⟨Real.exp 1 ^ 2, 0⟩ : ℂ) = Complex.exp 2 := by
    have e1 : Real.exp 1 ^ 2 = Real.exp 2 := by
      rw [← Real.exp_nat_mul]; norm_num
    have e2 : (⟨Real.exp 2, 0⟩ : ℂ) = ((Real.exp 2 : ℝ) : ℂ) := rfl
    rw [e1, e2, Complex.ofReal_exp]
    norm_num
  refine ⟨?_, ?_, ?_⟩
  · rw [h2, h1, h4]
    apply tc.ext <;> simp only [mul] <;> norm_num
  · rw [h2, h1, he]
    apply tc.ext <;> simp only [exp, mul_one]
  · have hlo := Real.exp_one_gt_d9
    have hhi := Real.exp_one_lt_d9
    rw [abs_lt]
    constructor <;> nlinarith

end tc

/-! ## Conjugation, inverses and the ring laws -/

namespace tc

/-- Exact reading. In exact arithmetic jets form a commutative ring under the
free operators: addition
and multiplication are commutative and associative, multiplication
distributes over addition, `(0, 0)` is the additive identity, `(1, 0)` is the
multiplicative identity, and `a + (-a) = (0, 0)`, with equality in both
fields. -/
theorem commutative_ring_laws (a b c : tc) :
    add a b = add b a ∧
    add (add a b) c = add a (add b c) ∧
    mul a b = mul b a ∧
    mul (mul a b) c = mul a (mul b c) ∧
    mul a (add b c) = add (mul a b) (mul a c) ∧
    add a ⟨0, 0⟩ = a ∧ add ⟨0, 0⟩ a = a ∧
    mul a ⟨1, 0⟩ = a ∧ mul ⟨1, 0⟩ a = a ∧
    add a (neg a) = ⟨0, 0⟩ := by
  refine ⟨?_, ?_, ?_, ?_, ?_, ?_, ?_, ?_, ?_, ?_⟩ <;>
    apply tc.ext <;> simp only [add, mul, neg] <;> ring

end tc

/-! ## Double precision: special values -/

set_option maxRecDepth 100000

namespace F64

theorem mul_nan_right (x : F64) : mul x nan = nan := by
  cases x <;> rfl

theorem mul_inf_isFinite (s : Bool) (t : F64) : (mul (inf s) t).isFinite = false := by
  cases t <;> simp only [mul] <;> try rfl
  split <;> rfl

theorem mul_isFinite_left (x y : F64) (h : x.isFinite = false) : (mul x y).isFinite = false := by
  cases x with
  | fin s m e => simp [isFinite] at h
  | inf s => exact mul_inf_isFinite s y
  | nan => cases y <;> rfl

theorem mul_isFinite_right (x y : F64) (h : y.isFinite = false) : (mul x y).isFinite = false := by
  cases y with
  | fin s m e => simp [isFinite] at h
  | inf s =>
    cases x <;> simp only [mul] <;> try rfl
    split <;> rfl
  | nan => rw [mul_nan_right]; rfl

theorem add_isFinite_left (x y : F64) (h : x.isFinite = false) : (add x y).isFinite = false := by
  cases x with
  | fin s m e => simp [isFinite] at h
  | inf s =>
    cases y <;> simp only [add] <;> try rfl
    split <;> rfl
  | nan => cases y <;> rfl

theorem add_isFinite_right (x y : F64) (h : y.isFinite = false) : (add x y).isFinite = false := by
  cases y with
  | fin s m e => simp [isFinite] at h
  | inf s =>
    cases x <;> simp only [add] <;> try rfl
    split <;> rfl
  | nan => cases x <;> rfl

theorem isInf_or_isNaN (x : F64) (h : x.isFinite = false) :
    x.isInf = true ∨ x.isNaN = true := by
  cases x with
  | fin s m e => simp [isFinite] at h
  | inf s => exact Or.inl rfl
  | nan => exact Or.inr rfl

theorem sub_isFinite_left (x y : F64) (h : x.isFinite = false) : (sub x y).isFinite = false :=
  add_isFinite_left x (neg y) h

end F64

namespace C64

theorem mul_re_cases (z w : C64) :
    (mul z w).re = F64.sub (F64.mul z.re w.re) (F64.mul z.im w.im) ∨
      ∃ t : F64, (mul z w).re = F64.mul (F64.inf false) t := by
  unfold mul
  simp only
  split
  · cases recomputed z w with
    | some p => exact Or.inr ⟨_, rfl⟩
    | none => exact Or.inl rfl
  · exact Or.inl rfl

theorem mul_im_cases (z w : C64) :
    (mul z w).im = F64.add (F64.mul z.re w.im) (F64.mul z.im w.re) ∨
      ∃ t : F64, (mul z w).im = F64.mul (F64.inf false) t := by
  unfold mul
  simp only
  split
  · cases recomputed z w with
    | some p => exact Or.inr ⟨_, rfl⟩
    | none => exact Or.inl rfl
  · exact Or.inl rfl

theorem mul_re_isFinite_right (z w : C64) (h : w.re.isFinite = false) :
    (mul z w).re.isFinite = false := by
  rcases mul_re_cases z w with h1 | ⟨t, h1⟩
  · rw [h1]
    exact F64.sub_isFinite_left _ _ (F64.mul_isFinite_right _ _ h)
  · rw [h1]
    exact F64.mul_inf_isFinite _ _

theorem mul_re_isFinite_left (z w : C64) (h : z.re.isFinite = false) :
    (mul z w).re.isFinite = false := by
  rcases mul_re_cases z w with h1 | ⟨t, h1⟩
  · rw [h1]
    exact F64.sub_isFinite_left _ _ (F64.mul_isFinite_left _ _ h)
  · rw [h1]
    exact F64.mul_inf_isFinite _ _

theorem mul_im_isFinite_nan (z : C64) : (mul z ⟨F64.nan, F64.nan⟩).im.isFinite = false := by
  rcases mul_im_cases z ⟨F64.nan, F64.nan⟩ with h1 | ⟨t, h1⟩
  · rw [h1]
    exact F64.add_isFinite_left _ _ (F64.mul_isFinite_right _ _ rfl)
  · rw [h1]
    exact F64.mul_inf_isFinite _ _

end C64

namespace tc64

theorem div_assign_aux_zero (t : C64) (hre : t.re.isZero = true) (him : t.im.isZero = true) :
    (⟨F64.mul (F64.div (F64.ofNat 1) (C64.norm t)) t.re,
      F64.mul (F64.neg (F64.div (F64.ofNat 1) (C64.norm t))) t.im⟩ : C64)
      = ⟨F64.nan, F64.nan⟩ := by
  obtain ⟨re, im⟩ := t
  cases re with
  | fin s m e =>
    cases im with
    | fin s2 m2 e2 =>
      simp only [F64.isZero, decide_eq_true_eq] at hre him
      subst hre
      subst him
      have hn : C64.norm ⟨F64.fin s 0 e, F64.fin s2 0 e2⟩ = F64.zero false := by
        simp [C64.norm, F64.mul, F64.round, F64.add, F64.zero]
      rw [hn]
      have hq : F64.div (F64.ofNat 1) (F64.zero false) = F64.inf false := by decide!
      rw [hq]
      simp [F64.mul, F64.neg]
    | inf s2 => simp [F64.isZero] at him
    | nan => simp [F64.isZero] at him
  | inf s => simp [F64.isZero] at hre
  | nan => simp [F64.isZero] at hre

end tc64

/-! ## Division by a zero-valued jet -/

namespace tc64

/-- C15. Division by a zero-valued jet, in double precision: for every jet `a`
and every jet `b` whose value is exactly zero (each part `+0.0` or `-0.0`),
`a/b`, and equally `a /= b`, returns a jet, and each part of its value field
is infinite or not-a-number. -/
theorem division_by_zero_jet (a b : tc64)
    (hre : b.val.re.isZero = true) (him : b.val.im.isZero = true) :
    ((div a b).val.re.isInf = true ∨ (div a b).val.re.isNaN = true) ∧
    ((div a b).val.im.isInf = true ∨ (div a b).val.im.isNaN = true) ∧
    div_assign a b = div a b := by
  have hval : (div a b).val = C64.mul a.val ⟨F64.nan, F64.nan⟩ := by
    simp only [div, div_assign]
    rw [div_assign_aux_zero b.val hre him]
  refine ⟨?_, ?_, rfl⟩
  · apply F64.isInf_or_isNaN
    rw [hval]
    exact C64.mul_re_isFinite_right _ _ rfl
  · apply F64.isInf_or_isNaN
    rw [hval]
    exact C64.mul_im_isFinite_nan _

/-- C15, instance: `tc(1, 1)` divided by `tc()` has both parts of its value
not-a-number. -/
theorem division_by_zero_jet_witness :
    (({} : tc64).val.re.isZero = true ∧ ({} : tc64).val.im.isZero = true) ∧
    ((div unit {}).val.re.isInf = true ∨ (div unit {}).val.re.isNaN = true) ∧
    ((div unit {}).val.im.isInf = true ∨ (div unit {}).val.im.isNaN = true) ∧
    div_assign unit {} = div unit {} :=
  ⟨⟨rfl, rfl⟩, division_by_zero_jet unit {} rfl rfl⟩

end tc64

/-! ## Double precision: what the arithmetic operators return -/

namespace tc64

theorem one_toReal : (F64.ofNat 1).toReal = 1 := by
  have h : F64.ofNat 1 = F64.fin false (2 ^ 52) (-52) := by decide!
  rw [h]
  simp only [F64.toReal]
  norm_num

theorem readings_agree_on_small_jets :
    div ⟨⟨F64.ofNat 6, F64.zero false⟩, ⟨F64.ofNat 1, F64.zero false⟩⟩
        ⟨⟨F64.ofNat 2, F64.zero false⟩, ⟨F64.ofNat 1, F64.zero false⟩⟩
      = ⟨⟨F64.ofNat 3, F64.zero false⟩, ⟨F64.neg (F64.ofNat 1), F64.zero false⟩⟩ ∧
    mul ⟨⟨F64.ofNat 2, F64.zero false⟩, ⟨F64.ofNat 1, F64.zero false⟩⟩
        ⟨⟨F64.ofNat 2, F64.zero false⟩, ⟨F64.ofNat 1, F64.zero false⟩⟩
      = ⟨⟨F64.ofNat 4, F64.zero false⟩, ⟨F64.ofNat 4, F64.zero false⟩⟩ := by
  refine ⟨by decide!, by decide!⟩

/-- C20, in double precision: for the jets `tc(0.1)`, `tc(0.2)`, `tc(0.3)`
addition is not associative and multiplication is not associative, and
`0.3*(0.1+0.2)` is not `0.3*0.1 + 0.3*0.2`; the value fields differ in the
last digit. -/
theorem ring_laws_fail_in_double :
    add (add (tenths 1) (tenths 2)) (tenths 3) ≠ add (tenths 1) (add (tenths 2) (tenths 3)) ∧
    mul (mul (tenths 1) (tenths 2)) (tenths 3) ≠ mul (tenths 1) (mul (tenths 2) (tenths 3)) ∧
    mul (tenths 3) (add (tenths 1) (tenths 2))
      ≠ add (mul (tenths 3) (tenths 1)) (mul (tenths 3) (tenths 2)) ∧
    (add (add (tenths 1) (tenths 2)) (tenths 3)).val.re = F64.fin false 5404319552844596 (-53) ∧
    (add (tenths 1) (add (tenths 2) (tenths 3))).val.re = F64.fin false 5404319552844595 (-53) := by
  refine ⟨by decide!, by decide!, by decide!, by decide!, by decide!⟩

end tc64

/-! ## Double precision: what the elementary functions return -/

namespace F64

end F64

namespace tc64

/-- The properties recorded of the host library are consistent. -/
theorem host_nonempty : Nonempty Host := by
  classical
  refine ⟨{
    cexp := fun z =>
      ⟨if (2 : ℝ) ^ (1024 : ℕ) ≤ Real.exp z.re.toReal then F64.inf false else F64.ofNat 1, z.im⟩
    clog := fun z => z
    cdiv := fun _ _ => ⟨F64.inf false, F64.nan⟩
    exp_im := fun _ _ _ _ => rfl
    exp_re := ?_
    exp_overflow := ?_
    div_overflow := fun _ _ _ _ _ _ => rfl }⟩
  · intro neg m e s
    by_cases h : (2 : ℝ) ^ (1024 : ℕ) ≤ Real.exp (F64.fin neg m e).toReal
    · exact Or.inl (if_pos h)
    · right
      simp only [if_neg h]
      decide!
  · intro neg m e s h
    exact if_pos h

end tc64

/-! ## Double precision: tests of exactness in whole numbers

A finite double is a whole multiple of `2^-1074`.  The tests compare whole
numbers; a test that succeeds shows that the operation did not round. -/

namespace F64
theorem toReal_eq_units (x : F64) (h : x.onGrid = true) :
    x.isFinite = true ∧ x.toReal = (x.units : ℝ) * (2 : ℝ) ^ (-1074 : ℤ) := by
  cases x with
  | fin s m e =>
    refine ⟨rfl, ?_⟩
    have he : (-1074 : ℤ) ≤ e := by simpa [onGrid] using h
    have h2 : (2 : ℝ) ^ e = (2 : ℝ) ^ ((e + 1074).toNat : ℕ) * (2 : ℝ) ^ (-1074 : ℤ) := by
      rw [← zpow_natCast, ← zpow_add₀ (two_ne_zero), Int.toNat_of_nonneg (by omega)]
      congr 1
      ring
    simp only [toReal, units]
    rw [h2]
    cases s <;> simp <;> ring
  | inf s => simp [onGrid] at h
  | nan => simp [onGrid] at h

theorem grid_step : (2 : ℝ) ^ (1074 : ℕ) * (2 : ℝ) ^ (-1074 : ℤ) = 1 := by
  rw [← zpow_natCast, ← zpow_add₀ (two_ne_zero)]
  norm_num

theorem exactly_of_isSum (r x y : F64) (h : isSum r x y = true) :
    Exactly r (x.toReal + y.toReal) := by
  simp only [isSum, Bool.and_eq_true, decide_eq_true_eq] at h
  obtain ⟨⟨⟨hr, hx⟩, hy⟩, hu⟩ := h
  refine ⟨(toReal_eq_units r hr).1, ?_⟩
  rw [(toReal_eq_units r hr).2, (toReal_eq_units x hx).2, (toReal_eq_units y hy).2, hu]
  push_cast
  ring

theorem exactly_of_isProd (r x y : F64) (h : isProd r x y = true) :
    Exactly r (x.toReal * y.toReal) := by
  simp only [isProd, Bool.and_eq_true, decide_eq_true_eq] at h
  obtain ⟨⟨⟨hr, hx⟩, hy⟩, hu⟩ := h
  refine ⟨(toReal_eq_units r hr).1, ?_⟩
  rw [(toReal_eq_units r hr).2, (toReal_eq_units x hx).2, (toReal_eq_units y hy).2]
  have hu2 : (r.units : ℝ) * (2 : ℝ) ^ (1074 : ℕ) = (x.units : ℝ) * (y.units : ℝ) := by
    have := congrArg (Int.cast : ℤ → ℝ) hu
    simpa only [Int.cast_mul, Int.cast_pow, Int.cast_ofNat] using this
  have hg := grid_step
  linear_combination ((2 : ℝ) ^ (-1074 : ℤ)) ^ 2 * hu2 - (r.units : ℝ) * (2 : ℝ) ^ (-1074 : ℤ) * hg

theorem exactly_of_isQuot (r x y : F64) (h : isQuot r x y = true) :
    Exactly r (x.toReal / y.toReal) := by
  simp only [isQuot, Bool.and_eq_true, decide_eq_true_eq] at h
  obtain ⟨⟨⟨⟨hr, hx⟩, hy⟩, hy0⟩, hu⟩ := h
  refine ⟨(toReal_eq_units r hr).1, ?_⟩
  rw [(toReal_eq_units r hr).2, (toReal_eq_units x hx).2, (toReal_eq_units y hy).2]
  have hu2 : (r.units : ℝ) * (y.units : ℝ) = (x.units : ℝ) * (2 : ℝ) ^ (1074 : ℕ) := by
    have := congrArg (Int.cast : ℤ → ℝ) hu
    simpa only [Int.cast_mul, Int.cast_pow, Int.cast_ofNat] using this
  have hy1 : (y.units : ℝ) ≠ 0 := by exact_mod_cast hy0
  have hg := grid_step
  have hp : ((2 : ℝ) ^ (-1074 : ℤ)) ≠ 0 := zpow_ne_zero _ two_ne_zero
  rw [eq_div_iff (mul_ne_zero hy1 hp)]
  linear_combination ((2 : ℝ) ^ (-1074 : ℤ)) ^ 2 * hu2
    + (x.units : ℝ) * (2 : ℝ) ^ (-1074 : ℤ) * hg

theorem isFinite_of_onGrid (x : F64) (h : x.onGrid = true) : x.isFinite = true := by
  cases x <;> simp_all [onGrid, isFinite]

theorem neg_toReal (x : F64) : (neg x).toReal = -x.toReal := by
  cases x with
  | fin s m e => cases s <;> simp [neg, toReal]
  | inf s => simp [neg, toReal]
  | nan => simp [neg, toReal]

end F64
namespace C64
theorem exactly_of_isSum_cmplex (r z w : C64) (h : isSum r z w = true) :
    Exactly r (z.toC + w.toC) := by
  simp only [isSum, Bool.and_eq_true] at h
  obtain ⟨⟨h1f, h1⟩ , ⟨h2f, h2⟩⟩ := And.intro (F64.exactly_of_isSum _ _ _ h.1)
    (F64.exactly_of_isSum _ _ _ h.2)
  refine ⟨by simp only [isFinite, h1f, h2f, Bool.and_self], ?_⟩
  apply Complex.ext
  · simpa [toC] using h1
  · simpa [toC] using h2

theorem exactly_of_isDiff_cmplex (r z w : C64) (h : isSum z r w = true) :
    Exactly r (z.toC - w.toC) := by
  have hz := exactly_of_isSum_cmplex z r w h
  simp only [isSum, F64.isSum, Bool.and_eq_true] at h
  refine ⟨?_, ?_⟩
  · simp only [isFinite, Bool.and_eq_true]
    exact ⟨F64.isFinite_of_onGrid _ h.1.1.1.2, F64.isFinite_of_onGrid _ h.2.1.1.2⟩
  · rw [hz.2]
    ring

theorem exactly_of_isProd_cmplex (r z w : C64) (h : isProd r z w = true) :
    Exactly r (z.toC * w.toC) := by
  simp only [isProd, Bool.and_eq_true, decide_eq_true_eq] at h
  obtain ⟨⟨⟨⟨⟨⟨⟨hr1, hr2⟩, ha⟩, hb⟩, hc⟩, hd⟩, h1⟩, h2⟩ := h
  refine ⟨?_, ?_⟩
  · simp only [isFinite, F64.isFinite_of_onGrid _ hr1, F64.isFinite_of_onGrid _ hr2,
      Bool.and_self]
  · have e1 : (r.re.units : ℝ) * (2 : ℝ) ^ (1074 : ℕ)
        = (z.re.units : ℝ) * w.re.units - (z.im.units : ℝ) * w.im.units := by
      have := congrArg (Int.cast : ℤ → ℝ) h1
      simpa only [Int.cast_mul, Int.cast_pow, Int.cast_ofNat, Int.cast_sub] using this
    have e2 : (r.im.units : ℝ) * (2 : ℝ) ^ (1074 : ℕ)
        = (z.re.units : ℝ) * w.im.units + (z.im.units : ℝ) * w.re.units := by
      have := congrArg (Int.cast : ℤ → ℝ) h2
      simpa only [Int.cast_mul, Int.cast_pow, Int.cast_ofNat, Int.cast_add] using this
    have hg := F64.grid_step
    apply Complex.ext
    · simp only [toC, Complex.mul_re]
      rw [(F64.toReal_eq_units _ hr1).2, (F64.toReal_eq_units _ ha).2,
        (F64.toReal_eq_units _ hb).2, (F64.toReal_eq_units _ hc).2,
        (F64.toReal_eq_units _ hd).2]
      linear_combination ((2 : ℝ) ^ (-1074 : ℤ)) ^ 2 * e1
        - (r.re.units : ℝ) * (2 : ℝ) ^ (-1074 : ℤ) * hg
    · simp only [toC, Complex.mul_im]
      rw [(F64.toReal_eq_units _ hr2).2, (F64.toReal_eq_units _ ha).2,
        (F64.toReal_eq_units _ hb).2, (F64.toReal_eq_units _ hc).2,
        (F64.toReal_eq_units _ hd).2]
      linear_combination ((2 : ℝ) ^ (-1074 : ℤ)) ^ 2 * e2
        - (r.im.units : ℝ) * (2 : ℝ) ^ (-1074 : ℤ) * hg

end C64
namespace tc64
theorem addExact_of_check (a b : tc64) (h : addCheck a b = true) : AddExact a b := by
  simp only [addCheck, Bool.and_eq_true] at h
  exact ⟨C64.exactly_of_isSum_cmplex _ _ _ h.1, C64.exactly_of_isSum_cmplex _ _ _ h.2⟩

theorem mulExact_of_check (a b : tc64) (h : mulCheck a b = true) : MulExact a b := by
  simp only [mulCheck, Bool.and_eq_true] at h
  obtain ⟨⟨⟨h1, h2⟩, h3⟩, h4⟩ := h
  exact ⟨C64.exactly_of_isProd_cmplex _ _ _ h1, C64.exactly_of_isProd_cmplex _ _ _ h2,
    C64.exactly_of_isProd_cmplex _ _ _ h3, C64.exactly_of_isSum_cmplex _ _ _ h4⟩

theorem divExact_of_check (a b : tc64) (h : divCheck a b = true) : DivExact a b := by
  simp only [divCheck, Bool.and_eq_true, decide_eq_true_eq] at h
  obtain ⟨⟨⟨⟨⟨⟨⟨⟨⟨⟨hn, hre⟩, him⟩, hnu⟩, hq⟩, hp1⟩, hp2⟩, h1⟩, h2⟩, h3⟩, h4⟩ := h
  refine ⟨⟨F64.isFinite_of_onGrid _ hn, ?_⟩, ?_, F64.exactly_of_isProd _ _ _ hp1, ?_,
    C64.exactly_of_isProd_cmplex _ _ _ h1, C64.exactly_of_isProd_cmplex _ _ _ h2,
    C64.exactly_of_isDiff_cmplex _ _ _ h3, C64.exactly_of_isProd_cmplex _ _ _ h4⟩
  · have e1 : ((C64.norm b.val).units : ℝ) * (2 : ℝ) ^ (1074 : ℕ)
        = (b.val.re.units : ℝ) * b.val.re.units + (b.val.im.units : ℝ) * b.val.im.units := by
      have := congrArg (Int.cast : ℤ → ℝ) hnu
      simpa only [Int.cast_mul, Int.cast_pow, Int.cast_ofNat, Int.cast_add] using this
    have hg := F64.grid_step
    rw [(F64.toReal_eq_units _ hn).2, Complex.normSq_apply]
    simp only [C64.toC]
    rw [(F64.toReal_eq_units _ hre).2, (F64.toReal_eq_units _ him).2]
    linear_combination ((2 : ℝ) ^ (-1074 : ℤ)) ^ 2 * e1
      - ((C64.norm b.val).units : ℝ) * (2 : ℝ) ^ (-1074 : ℤ) * hg
  · have := F64.exactly_of_isQuot _ _ _ hq
    rw [one_toReal] at this
    exact this
  · have := F64.exactly_of_isProd _ _ _ hp2
    refine ⟨this.1, ?_⟩
    rw [this.2, F64.neg_toReal]

theorem six_div_two_exact : DivExact six two := divExact_of_check _ _ (by decide!)

end tc64
/-! ## Double precision: quotient rule, inverses and soundness where nothing rounds -/

namespace tc64
theorem add_toExact (a b : tc64) (h : AddExact a b) :
    (add a b).isFinite = true ∧ (add a b).toExact = tc.add a.toExact b.toExact := by
  obtain ⟨⟨hf1, h1⟩, ⟨hf2, h2⟩⟩ := h
  refine ⟨by simp only [isFinite, add, hf1, hf2, Bool.and_self], ?_⟩
  apply tc.ext
  · exact h1
  · exact h2

theorem mul_toExact (a b : tc64) (h : MulExact a b) :
    (mul a b).isFinite = true ∧ (mul a b).toExact = tc.mul a.toExact b.toExact := by
  obtain ⟨⟨hf1, h1⟩, ⟨-, h2⟩, ⟨-, h3⟩, ⟨hf4, h4⟩⟩ := h
  refine ⟨by simp only [isFinite, mul, hf1, hf4, Bool.and_self], ?_⟩
  apply tc.ext
  · exact h1
  · show (C64.add _ _).toC = _
    rw [h4, h2, h3]
    rfl

end tc64
/-! ## Double precision: commutativity, signed zeros and the unit -/

namespace F64
theorem add_comm (x y : F64) : add x y = add y x := by
  cases x with
  | nan => cases y <;> rfl
  | inf s =>
    cases y with
    | nan => rfl
    | inf t =>
      simp only [add]
      by_cases h : s = t
      · subst h; rfl
      · rw [if_neg h, if_neg (fun h2 => h h2.symm)]
    | fin t m e => rfl
  | fin s1 m1 e1 =>
    cases y with
    | nan => rfl
    | inf t => rfl
    | fin s2 m2 e2 =>
      simp only [add]
      by_cases h1 : m1 = 0
      · by_cases h2 : m2 = 0
        · simp [h1, h2, Bool.and_comm]
        · simp [h1, h2]
      · by_cases h2 : m2 = 0
        · simp [h1, h2]
        · simp only [if_neg h1, if_neg h2, min_comm e2 e1]
          rw [Int.add_comm
            ((if s2 = true then -1 else 1) * ((m2 <<< (e2 - min e1 e2).toNat : Nat) : Int))]

theorem mul_comm (x y : F64) : mul x y = mul y x := by
  cases x with
  | nan => cases y <;> rfl
  | inf s =>
    cases y with
    | nan => rfl
    | inf t => simp only [mul, Bool.xor_comm]
    | fin t m e => simp only [mul, Bool.xor_comm]
  | fin s1 m1 e1 =>
    cases y with
    | nan => rfl
    | inf t => simp only [mul, Bool.xor_comm]
    | fin s2 m2 e2 => simp only [mul, Bool.xor_comm, Nat.mul_comm m1 m2, Int.add_comm e1 e2]

end F64
namespace C64
theorem isInf_unNaN (x : F64) : (unNaN x).isInf = x.isInf := by
  cases x <;> rfl

theorem isInf_box (x : F64) : (box x).isInf = false := by
  cases x <;> rfl

theorem unNaN_box (x : F64) : unNaN (box x) = box x := by
  cases x <;> rfl

theorem box_unNaN (x : F64) : box (unNaN x) = box x := by
  cases x <;> rfl

theorem add_comm_cmplex (z w : C64) : add z w = add w z := by
  simp only [add, F64.add_comm z.re, F64.add_comm z.im]

theorem recomputed_comm (z w : C64) : recomputed z w = recomputed w z := by
  simp only [recomputed]
  cases hz : (z.re.isInf || z.im.isInf) <;> cases hw : (w.re.isInf || w.im.isInf)
  · simp only [hz, hw, Bool.false_eq_true, if_false, Bool.or_false, Bool.not_false,
      Bool.true_and, Bool.false_or]
    rw [F64.mul_comm w.re z.re, F64.mul_comm w.im z.im, F64.mul_comm w.re z.im,
      F64.mul_comm w.im z.re]
    cases hp : ((F64.mul z.re w.re).isInf || (F64.mul z.im w.im).isInf
        || (F64.mul z.re w.im).isInf || (F64.mul z.im w.re).isInf)
    · have hp2 : ((F64.mul z.re w.re).isInf || (F64.mul z.im w.im).isInf
        || (F64.mul z.im w.re).isInf || (F64.mul z.re w.im).isInf) = false := by
        rw [← hp]
        simp only [Bool.or_assoc, Bool.or_comm (F64.mul z.im w.re).isInf]
      simp only [hp, hp2, Bool.false_eq_true, if_false]
    · have hp2 : ((F64.mul z.re w.re).isInf || (F64.mul z.im w.im).isInf
        || (F64.mul z.im w.re).isInf || (F64.mul z.re w.im).isInf) = true := by
        rw [← hp]
        simp only [Bool.or_assoc, Bool.or_comm (F64.mul z.im w.re).isInf]
      simp only [hp, hp2, if_true]
      rw [F64.mul_comm (unNaN w.re) (unNaN z.re), F64.mul_comm (unNaN w.im) (unNaN z.im),
        F64.mul_comm (unNaN w.re) (unNaN z.im), F64.mul_comm (unNaN w.im) (unNaN z.re),
        F64.add_comm (F64.mul (unNaN z.im) (unNaN w.re))]
  · simp only [hz, hw, Bool.false_eq_true, if_false, if_true, Bool.or_true, Bool.true_or,
      Bool.not_true, Bool.false_and, isInf_unNaN, Bool.or_false]
    rw [F64.mul_comm (box w.re), F64.mul_comm (box w.im), F64.mul_comm (box w.re),
      F64.mul_comm (box w.im),
      F64.add_comm (F64.mul (unNaN z.im) (box w.re))]
  · simp only [hz, hw, Bool.false_eq_true, if_false, if_true, Bool.or_true, Bool.true_or,
      Bool.not_true, Bool.false_and, isInf_unNaN, Bool.or_false]
    rw [F64.mul_comm (unNaN w.re), F64.mul_comm (unNaN w.im), F64.mul_comm (unNaN w.re),
      F64.mul_comm (unNaN w.im),
      F64.add_comm (F64.mul (box z.im) (unNaN w.re))]
  · simp only [hz, hw, if_true, Bool.or_true, Bool.true_or, Bool.false_eq_true, if_false,
      Bool.not_true, Bool.false_and, isInf_unNaN, unNaN_box, box_unNaN]
    rw [F64.mul_comm (box w.re), F64.mul_comm (box w.im), F64.mul_comm (box w.re),
      F64.mul_comm (box w.im),
      F64.add_comm (F64.mul (box z.im) (box w.re))]

theorem mul_comm_cmplex (z w : C64) : mul z w = mul w z := by
  simp only [mul]
  rw [recomputed_comm w z, F64.mul_comm w.re z.re, F64.mul_comm w.im z.im,
    F64.mul_comm w.re z.im, F64.mul_comm w.im z.re,
    F64.add_comm (F64.mul z.im w.re) (F64.mul z.re w.im)]

end C64
namespace tc64
theorem add_comm_jet (a b : tc64) : add a b = add b a := by
  simp only [add, C64.add_comm_cmplex a.val, C64.add_comm_cmplex a.der]

theorem mul_comm_jet (a b : tc64) : mul a b = mul b a := by
  simp only [mul, C64.mul_comm_cmplex a.val b.val, C64.mul_comm_cmplex a.val b.der,
    C64.mul_comm_cmplex a.der b.val, C64.add_comm_cmplex (C64.mul b.der a.val)]

end tc64
namespace F64
theorem bitsAux_eq_size (fuel n : Nat) (h : n ≤ fuel) : bitsAux fuel n = Nat.size n := by
  induction fuel generalizing n with
  | zero =>
    have : n = 0 := by omega
    subst this
    simp [bitsAux]
  | succ f ih =>
    simp only [bitsAux]
    by_cases h0 : n = 0
    · simp [h0]
    · rw [if_neg h0, ih (n / 2) (by omega)]
      have hk : Nat.size (n / 2) + 1 ≤ Nat.size n := by
        rw [Nat.succ_le_iff, Nat.lt_size]
        have h1 : 2 ^ (Nat.size (n / 2)) ≤ n ∨ Nat.size (n / 2) = 0 := by
          by_cases hz : Nat.size (n / 2) = 0
          · exact Or.inr hz
          · left
            have : Nat.size (n / 2) - 1 < Nat.size (n / 2) := by omega
            rw [Nat.lt_size] at this
            have h2 : 2 ^ (Nat.size (n / 2)) = 2 * 2 ^ (Nat.size (n / 2) - 1) := by
              rw [← pow_succ']
              congr 1
              omega
            rw [h2]
            omega
        rcases h1 with h1 | h1
        · exact h1
        · rw [h1]
          simp
          omega
      have hl : Nat.size n ≤ Nat.size (n / 2) + 1 := by
        rw [Nat.size_le]
        have : n / 2 < 2 ^ Nat.size (n / 2) := Nat.lt_size_self _
        rw [pow_succ]
        omega
      omega

theorem bits_eq_size (n : Nat) : bits n = Nat.size n := bitsAux_eq_size n n le_rfl

theorem round_of_shift (s : Bool) (n : Nat) (e : Int) (k : Nat) (hn : n ≠ 0) (hk : 0 < k)
    (h1 : max (e + (bits n : Nat) - 53) (-1074) = e + k) (hd : n % 2 ^ k = 0)
    (hq : n >>> k < 2 ^ 53) (he : e + k ≤ 971) :
    round s n e = fin s (n >>> k) (e + k) := by
  have hsh : (e + (k : Int) - e).toNat = k := by
    have : e + (k : Int) - e = (k : Int) := by ring
    rw [this]
    exact Int.toNat_natCast k
  have hle : ¬ (e + (k : Int) ≤ e) := by omega
  have hhalf : ¬ ((2 : Nat) ^ (k - 1) < 0 ∨ (0 = (2 : Nat) ^ (k - 1) ∧ (n >>> k) % 2 = 1)) := by
    have : 0 < (2 : Nat) ^ (k - 1) := Nat.pow_pos (by norm_num)
    omega
  have hq2 : ¬ (n >>> k = 2 ^ 53) := by omega
  have he2 : ¬ ((971 : Int) < e + k) := by omega
  simp only [round, if_neg hn, h1, if_neg hle, hsh, hd, if_neg hhalf, if_neg hq2, if_neg he2]

theorem one_eq : ofNat 1 = fin false (2 ^ 52) (-52) := by decide!

theorem mul_one (s : Bool) (m : Nat) (e : Int) (h : (fin s m e).wellFormed = true) :
    mul (fin s m e) (ofNat 1) = fin s m e := by
  simp only [wellFormed, Bool.and_eq_true, Bool.or_eq_true, decide_eq_true_eq] at h
  obtain ⟨⟨⟨hm, he1⟩, he2⟩, hc⟩ := h
  rw [one_eq]
  simp only [mul, Bool.xor_false]
  by_cases h0 : m = 0
  · subst h0
    have : e = -1074 := by
      rcases hc with hc | hc
      · norm_num at hc
      · exact hc
    subst this
    simp [round]
  · have hn : m * 2 ^ 52 ≠ 0 := Nat.mul_ne_zero h0 (by norm_num)
    have hsize : bits (m * 2 ^ 52) = Nat.size m + 52 := by
      rw [bits_eq_size, ← Nat.shiftLeft_eq, Nat.size_shiftLeft h0]
    have hshift : (m * 2 ^ 52) >>> 52 = m := by
      rw [Nat.shiftRight_eq_div_pow, Nat.mul_div_cancel _ (by norm_num)]
    have hmod : (m * 2 ^ 52) % 2 ^ 52 = 0 := Nat.mul_mod_left _ _
    have hsz : Nat.size m ≤ 53 := Nat.size_le.mpr hm
    have key := round_of_shift s (m * 2 ^ 52) (e + -52) 52 hn (by norm_num) ?_ hmod
      (by rw [hshift]; exact hm) (by omega)
    · rw [key, hshift]
      congr 1
      omega
    · rw [hsize]
      rcases hc with hc | hc
      · have : 53 ≤ Nat.size m := by
          rw [Nat.succ_le_iff, Nat.lt_size]
          exact hc
        have h53 : Nat.size m = 53 := le_antisymm hsz this
        rw [h53]
        push_cast
        omega
      · subst hc
        push_cast
        omega

theorem one_mul (s : Bool) (m : Nat) (e : Int) (h : (fin s m e).wellFormed = true) :
    mul (ofNat 1) (fin s m e) = fin s m e := by
  rw [mul_comm, mul_one s m e h]

theorem round_isNaN (s : Bool) (n : Nat) (e : Int) : (round s n e).isNaN = false := by
  unfold round
  simp only []
  split_ifs <;> rfl

theorem mul_isNaN_of_finite (x y : F64) (hx : x.isFinite = true) (hy : y.isFinite = true) :
    (mul x y).isNaN = false := by
  cases x <;> cases y <;> simp_all [isFinite, mul, round_isNaN]

theorem numEq_refl (x : F64) (h : x.isNaN = false) : numEq x x = true := by
  cases x <;> simp_all [numEq, isNaN]

theorem isNaN_of_numEq (x y : F64) (h : numEq x y = true) : x.isNaN = false := by
  cases x <;> cases y <;> simp_all [numEq, isNaN]

theorem isZero_of_numEq_zero (s : Bool) (e : Int) (y : F64)
    (h : numEq (fin s 0 e) y = true) : y.isZero = true := by
  cases y with
  | fin t m e2 =>
    simp only [numEq, Bool.or_eq_true, Bool.and_eq_true, decide_eq_true_eq] at h
    simp only [isZero, decide_eq_true_eq]
    rcases h with h | h
    · exact h.2
    · have h2 := h.2
      rw [Nat.zero_shiftLeft, Nat.shiftLeft_eq] at h2
      rcases Nat.mul_eq_zero.mp h2.symm with h3 | h3
      · exact h3
      · exact absurd h3 (by positivity)
  | inf t => simp [numEq] at h
  | nan => simp [numEq] at h

theorem numEq_zero_of_isZero (s : Bool) (e : Int) (y : F64) (h : y.isZero = true) :
    numEq (fin s 0 e) y = true := by
  cases y <;> simp_all [numEq, isZero]

theorem add_zero_numEq (x y z : F64) (hxy : numEq x y = true) (hz : z.isZero = true) :
    numEq (add x z) y = true := by
  cases z with
  | fin t mz ez =>
    have hmz : mz = 0 := by simpa [isZero] using hz
    subst hmz
    cases x with
    | fin s m e =>
      by_cases hm : m = 0
      · subst hm
        have hy := isZero_of_numEq_zero s e y hxy
        simp only [add, if_true]
        exact numEq_zero_of_isZero _ _ y hy
      · simp only [add, if_neg hm, if_true]
        exact hxy
    | inf s => exact hxy
    | nan => simp [numEq] at hxy
  | inf t => simp [isZero] at hz
  | nan => simp [isZero] at hz

theorem zero_add_numEq (x y z : F64) (hxy : numEq x y = true) (hz : z.isZero = true) :
    numEq (add z x) y = true := by
  rw [add_comm]
  exact add_zero_numEq x y z hxy hz

theorem isZero_neg (z : F64) : (neg z).isZero = z.isZero := by
  cases z <;> rfl

theorem sub_zero_numEq (x y z : F64) (hxy : numEq x y = true) (hz : z.isZero = true) :
    numEq (sub x z) y = true :=
  add_zero_numEq x y (neg z) hxy ((isZero_neg z).trans hz)

theorem isZero_mul_right (x z : F64) (hx : x.isFinite = true) (hz : z.isZero = true) :
    (mul x z).isZero = true := by
  cases x <;> cases z <;> simp_all [isFinite, isZero, mul, round]

theorem isZero_mul_left (x z : F64) (hx : x.isFinite = true) (hz : z.isZero = true) :
    (mul z x).isZero = true := by
  rw [mul_comm]
  exact isZero_mul_right x z hx hz

theorem isZero_add (x z : F64) (hx : x.isZero = true) (hz : z.isZero = true) :
    (add x z).isZero = true := by
  cases x <;> cases z <;> simp_all [isZero, add]

theorem isZero_sub (x z : F64) (hx : x.isZero = true) (hz : z.isZero = true) :
    (sub x z).isZero = true :=
  isZero_add x (neg z) hx ((isZero_neg z).trans hz)

theorem isNaN_of_isZero (z : F64) (h : z.isZero = true) : z.isNaN = false := by
  cases z <;> simp_all [isZero, isNaN]

theorem isNaN_of_isFinite (z : F64) (h : z.isFinite = true) : z.isNaN = false := by
  cases z <;> simp_all [isFinite, isNaN]

theorem add_neg_self (x : F64) (h : x.isFinite = true) : add x (neg x) = zero false := by
  cases x with
  | fin s m e =>
    simp only [neg, add, zero]
    by_cases hm : m = 0
    · simp [hm]
    · simp only [if_neg hm, min_self, sub_self, Int.toNat_zero, Nat.shiftLeft_zero]
      have : (if s = true then (-1 : Int) else 1) * (m : Int)
          + (if (!s) = true then (-1 : Int) else 1) * (m : Int) = 0 := by
        cases s <;> simp
      rw [if_pos this]
  | inf s => simp [isFinite] at h
  | nan => simp [isFinite] at h

end F64
namespace C64
theorem numEq_intro_cmplex (z w : C64) (h1 : F64.numEq z.re w.re = true)
    (h2 : F64.numEq z.im w.im = true) : numEq z w = true := by
  simp only [numEq, h1, h2, Bool.and_self]

theorem mul_of_not_nan (z w : C64)
    (h : (F64.sub (F64.mul z.re w.re) (F64.mul z.im w.im)).isNaN = false) :
    mul z w = ⟨F64.sub (F64.mul z.re w.re) (F64.mul z.im w.im),
      F64.add (F64.mul z.re w.im) (F64.mul z.im w.re)⟩ := by
  simp only [mul, h, Bool.false_and, Bool.false_eq_true, if_false]

/-- The product of a finite complex number by a promoted finite `double` is,
under `==`, the complex number scaled part by part. -/
theorem mul_ofDouble_numEq (z : C64) (c : F64) (hz : z.isFinite = true)
    (hc : c.isFinite = true) : numEq (mul z (ofDouble c)) (scale z c) = true := by
  simp only [isFinite, Bool.and_eq_true] at hz
  have hx : F64.numEq (F64.sub (F64.mul z.re c) (F64.mul z.im (F64.zero false)))
      (F64.mul z.re c) = true :=
    F64.sub_zero_numEq _ _ _ (F64.numEq_refl _ (F64.mul_isNaN_of_finite _ _ hz.1 hc))
      (F64.isZero_mul_right _ _ hz.2 rfl)
  have hy : F64.numEq (F64.add (F64.mul z.re (F64.zero false)) (F64.mul z.im c))
      (F64.mul z.im c) = true :=
    F64.zero_add_numEq _ _ _ (F64.numEq_refl _ (F64.mul_isNaN_of_finite _ _ hz.2 hc))
      (F64.isZero_mul_right _ _ hz.1 rfl)
  rw [mul_of_not_nan z (ofDouble c) (F64.isNaN_of_numEq _ _ hx)]
  exact numEq_intro_cmplex _ _ hx hy

/-- The product of a finite complex number by the complex zero has zero parts. -/
theorem mul_zero_isZero (z : C64) (hz : z.isFinite = true) :
    (mul z ⟨F64.zero false, F64.zero false⟩).re.isZero = true ∧
    (mul z ⟨F64.zero false, F64.zero false⟩).im.isZero = true := by
  simp only [isFinite, Bool.and_eq_true] at hz
  have h1 : (F64.sub (F64.mul z.re (F64.zero false)) (F64.mul z.im (F64.zero false))).isZero
      = true :=
    F64.isZero_sub _ _ (F64.isZero_mul_right _ _ hz.1 rfl) (F64.isZero_mul_right _ _ hz.2 rfl)
  have h2 : (F64.add (F64.mul z.re (F64.zero false)) (F64.mul z.im (F64.zero false))).isZero
      = true :=
    F64.isZero_add _ _ (F64.isZero_mul_right _ _ hz.1 rfl) (F64.isZero_mul_right _ _ hz.2 rfl)
  rw [mul_of_not_nan z _ (F64.isNaN_of_isZero _ h1)]
  exact ⟨h1, h2⟩

theorem add_zero_numEq_cmplex (z w y : C64) (h : numEq z y = true) (h1 : w.re.isZero = true)
    (h2 : w.im.isZero = true) : numEq (add z w) y = true := by
  simp only [numEq, Bool.and_eq_true] at h
  exact numEq_intro_cmplex _ _ (F64.add_zero_numEq _ _ _ h.1 h1) (F64.add_zero_numEq _ _ _ h.2 h2)

theorem zero_add_numEq_cmplex (z w y : C64) (h : numEq z y = true) (h1 : w.re.isZero = true)
    (h2 : w.im.isZero = true) : numEq (add w z) y = true := by
  rw [add_comm_cmplex]
  exact add_zero_numEq_cmplex z w y h h1 h2

theorem numEq_refl_cmplex (z : C64) (h : z.isFinite = true) : numEq z z = true := by
  simp only [isFinite, Bool.and_eq_true] at h
  exact numEq_intro_cmplex _ _ (F64.numEq_refl _ (F64.isNaN_of_isFinite _ h.1))
    (F64.numEq_refl _ (F64.isNaN_of_isFinite _ h.2))

end C64
/-! ## Double precision: scalar promotion and the ring laws -/

namespace C64
end C64
namespace tc64
theorem numEq_intro_jet (a b : tc64) (h1 : C64.numEq a.val b.val = true)
    (h2 : C64.numEq a.der b.der = true) : numEq a b = true := by
  simp only [numEq, h1, h2, Bool.and_self]

end tc64
namespace C64
theorem scale_one (z : C64) (hf : z.isFinite = true) (h1 : z.re.wellFormed = true)
    (h2 : z.im.wellFormed = true) : scale z (F64.ofNat 1) = z := by
  obtain ⟨re, im⟩ := z
  simp only [isFinite, Bool.and_eq_true] at hf
  cases re with
  | fin s1 m1 e1 =>
    cases im with
    | fin s2 m2 e2 =>
      simp only [scale, F64.mul_one s1 m1 e1 h1, F64.mul_one s2 m2 e2 h2]
    | inf s => simp [F64.isFinite] at hf
    | nan => simp [F64.isFinite] at hf
  | inf s => simp [F64.isFinite] at hf
  | nan => simp [F64.isFinite] at hf

theorem add_neg_self_cmplex (z : C64) (hf : z.isFinite = true) :
    add z (neg z) = ⟨F64.zero false, F64.zero false⟩ := by
  simp only [isFinite, Bool.and_eq_true] at hf
  simp only [add, neg, F64.add_neg_self _ hf.1, F64.add_neg_self _ hf.2]

end C64
namespace tc64
/-- C20, amended. The laws of a commutative ring in double precision: `a+b`
and `b+a`, and `a*b` and `b*a`, are the same jet, part by part the same
double; for a jet `a` with finite fields, `a + (0,0)` and `(0,0) + a` equal `a`
under `==`, `a + (-a)` is the jet `(0,0)`, and, the fields being well-formed
doubles, `a*(1,0)` and `(1,0)*a` equal `a` under `==`; the two sides of the
associative laws and of the distributive law hold exactly the same numbers
whenever no operation on either side rounds. -/
theorem ring_laws_in_double (a b c : tc64) :
    add a b = add b a ∧
    mul a b = mul b a ∧
    (a.isFinite = true →
      numEq (add a (ofCmplex (C64.ofDouble (F64.zero false)))) a = true ∧
      numEq (add (ofCmplex (C64.ofDouble (F64.zero false))) a) a = true ∧
      add a (neg a) = ofCmplex (C64.ofDouble (F64.zero false))) ∧
    (a.isFinite = true → a.wellFormed = true →
      numEq (mul a (ofCmplex (C64.ofDouble (F64.ofNat 1)))) a = true ∧
      numEq (mul (ofCmplex (C64.ofDouble (F64.ofNat 1))) a) a = true) ∧
    (AddExact a b → AddExact (add a b) c → AddExact b c → AddExact a (add b c) →
      (add (add a b) c).toExact = (add a (add b c)).toExact) ∧
    (MulExact a b → MulExact (mul a b) c → MulExact b c → MulExact a (mul b c) →
      (mul (mul a b) c).toExact = (mul a (mul b c)).toExact) ∧
    (AddExact b c → MulExact a (add b c) → MulExact a b → MulExact a c →
      AddExact (mul a b) (mul a c) →
      (mul a (add b c)).toExact = (add (mul a b) (mul a c)).toExact) := by
  have hr := tc.commutative_ring_laws a.toExact b.toExact c.toExact
  refine ⟨add_comm_jet a b, mul_comm_jet a b, fun ha => ?_, fun ha hw => ?_, ?_, ?_, ?_⟩
  · have ha' := ha
    simp only [isFinite, Bool.and_eq_true] at ha'
    refine ⟨?_, ?_, ?_⟩
    · exact numEq_intro_jet _ _
        (C64.add_zero_numEq_cmplex _ _ _ (C64.numEq_refl_cmplex _ ha'.1) rfl rfl)
        (C64.add_zero_numEq_cmplex _ _ _ (C64.numEq_refl_cmplex _ ha'.2) rfl rfl)
    · exact numEq_intro_jet _ _
        (C64.zero_add_numEq_cmplex _ _ _ (C64.numEq_refl_cmplex _ ha'.1) rfl rfl)
        (C64.zero_add_numEq_cmplex _ _ _ (C64.numEq_refl_cmplex _ ha'.2) rfl rfl)
    · show (⟨C64.add a.val (C64.neg a.val), C64.add a.der (C64.neg a.der)⟩ : tc64) = _
      rw [C64.add_neg_self_cmplex _ ha'.1, C64.add_neg_self_cmplex _ ha'.2]
      rfl
  · have ha' := ha
    simp only [isFinite, Bool.and_eq_true] at ha'
    simp only [wellFormed, Bool.and_eq_true] at hw
    obtain ⟨⟨⟨w1, w2⟩, w3⟩, w4⟩ := hw
    have hone : (F64.ofNat 1).isFinite = true := by decide!
    have hv : C64.numEq (C64.mul a.val (C64.ofDouble (F64.ofNat 1))) a.val = true := by
      have := C64.mul_ofDouble_numEq a.val (F64.ofNat 1) ha'.1 hone
      rwa [C64.scale_one a.val ha'.1 w1 w2] at this
    have hd : C64.numEq (C64.mul a.der (C64.ofDouble (F64.ofNat 1))) a.der = true := by
      have := C64.mul_ofDouble_numEq a.der (F64.ofNat 1) ha'.2 hone
      rwa [C64.scale_one a.der ha'.2 w3 w4] at this
    have hz := C64.mul_zero_isZero a.val ha'.1
    have key : numEq (mul a (ofCmplex (C64.ofDouble (F64.ofNat 1)))) a = true :=
      numEq_intro_jet _ _ hv (C64.zero_add_numEq_cmplex _ _ _ hd hz.1 hz.2)
    refine ⟨key, ?_⟩
    rw [mul_comm_jet]
    exact key
  · intro h1 h2 h3 h4
    rw [(add_toExact _ _ h2).2, (add_toExact _ _ h1).2, (add_toExact _ _ h4).2,
      (add_toExact _ _ h3).2]
    exact hr.2.1
  · intro h1 h2 h3 h4
    rw [(mul_toExact _ _ h2).2, (mul_toExact _ _ h1).2, (mul_toExact _ _ h4).2,
      (mul_toExact _ _ h3).2]
    exact hr.2.2.2.1
  · intro h1 h2 h3 h4 h5
    rw [(mul_toExact _ _ h2).2, (add_toExact _ _ h1).2, (add_toExact _ _ h5).2,
      (mul_toExact _ _ h3).2, (mul_toExact _ _ h4).2]
    exact hr.2.2.2.2.1

/-- C20, instance: the jets `tc(6,1)`, `tc(2,1)` and `tc(1,1)`; no operation of
the associative and distributive laws rounds on them. -/
theorem ring_laws_in_double_witness :
    six.isFinite = true ∧ six.wellFormed = true ∧
    AddExact six two ∧ AddExact (add six two) unit ∧ AddExact two unit ∧
    AddExact six (add two unit) ∧
    MulExact six two ∧ MulExact (mul six two) unit ∧ MulExact two unit ∧
    MulExact six (mul two unit) ∧
    MulExact six (add two unit) ∧ MulExact six unit ∧ AddExact (mul six two) (mul six unit) ∧
    add (add six two) unit = add six (add two unit) ∧
    mul (mul six two) unit = mul six (mul two unit) ∧
    mul six (add two unit) = add (mul six two) (mul six unit) ∧
    (mul (mul six two) unit).toExact = (mul six (mul two unit)).toExact ∧
    numEq (mul six (ofCmplex (C64.ofDouble (F64.ofNat 1)))) six = true :=
  have hf : six.isFinite = true := by decide!
  have hw : six.wellFormed = true := by decide!
  have a1 : AddExact six two := addExact_of_check _ _ (by decide!)
  have a2 : AddExact (add six two) unit := addExact_of_check _ _ (by decide!)
  have a3 : AddExact two unit := addExact_of_check _ _ (by decide!)
  have a4 : AddExact six (add two unit) := addExact_of_check _ _ (by decide!)
  have m1 : MulExact six two := mulExact_of_check _ _ (by decide!)
  have m2 : MulExact (mul six two) unit := mulExact_of_check _ _ (by decide!)
  have m3 : MulExact two unit := mulExact_of_check _ _ (by decide!)
  have m4 : MulExact six (mul two unit) := mulExact_of_check _ _ (by decide!)
  have d1 : MulExact six (add two unit) := mulExact_of_check _ _ (by decide!)
  have d2 : MulExact six unit := mulExact_of_check _ _ (by decide!)
  have d3 : AddExact (mul six two) (mul six unit) := addExact_of_check _ _ (by decide!)
  have h := ring_laws_in_double six two unit
  ⟨hf, hw, a1, a2, a3, a4, m1, m2, m3, m4, d1, d2, d3, by decide!, by decide!, by decide!,
    h.2.2.2.2.2.1 m1 m2 m3 m4, (h.2.2.2.1 hf hw).1⟩

end tc64
/-! ## Double precision: the elementary functions where nothing rounds -/

namespace tc64
end tc64
